import Mathlib

/-!
A shallow embedding of the commit-log storage engine from
`PoorlyDefinedBehaviour/distributed_services_with_rust` (the modules
`store.rs`, `index.rs`, `segment.rs` and `commit_log.rs`), together with
proofs and refutations of the behavioural claims made by its spec.

Files are modelled as lists of bytes (`List Nat`, each element < 256 in
every reachable state).  The `u64`/`u32` machine integers of the source
are modelled as `Nat`; the only place the source performs an explicit
truncating cast (`as u32` in `Segment::append`) is modelled with an
explicit `% U32`, and the byte serialisation `to_be_bytes` inherently
truncates to the serialised width, exactly as in the source.  Statements
about records carry the side conditions (`storeLen … < U64`, offsets
below `U64`) under which the unbounded-`Nat` model and the wrapping
`u64` model agree.
-/

set_option maxRecDepth 100000

namespace CommitLog

/-- 2^32, the modulus of a `u32`. -/
def U32 : Nat := 256 ^ 4

/-- 2^64, the modulus of a `u64`/`usize`. -/
def U64 : Nat := 256 ^ 8

/-- Big-endian serialisation of `n` into exactly `w` bytes, the model of
`to_be_bytes` on a `w`-byte machine integer (truncates to `w` bytes). -/
def beBytes : Nat → Nat → List Nat
  | 0, _ => []
  | w + 1, n => beBytes w (n / 256) ++ [n % 256]

/-- Big-endian deserialisation, the model of `from_be_bytes`. -/
def fromBeBytes (bs : List Nat) : Nat :=
  bs.foldl (fun acc b => acc * 256 + b) 0

/-- Overwrite the bytes of `l` starting at `pos` with `bs`, the model of
`write_all` into the slice `&mut mmap[pos..pos + bs.len()]`. -/
def listWrite (l : List Nat) (pos : Nat) (bs : List Nat) : List Nat :=
  l.take pos ++ bs ++ l.drop (pos + bs.length)

theorem beBytes_length (w n : Nat) : (beBytes w n).length = w := by
  induction w generalizing n with
  | zero => rfl
  | succ w ih => simp [beBytes, ih]

theorem fromBeBytes_append_singleton (bs : List Nat) (b : Nat) :
    fromBeBytes (bs ++ [b]) = fromBeBytes bs * 256 + b := by
  simp [fromBeBytes, List.foldl_append]

theorem fromBeBytes_beBytes (w n : Nat) :
    fromBeBytes (beBytes w n) = n % 256 ^ w := by
  induction w generalizing n with
  | zero => simp [beBytes, fromBeBytes, Nat.mod_one]
  | succ w ih =>
    rw [beBytes, fromBeBytes_append_singleton, ih]
    rw [pow_succ, Nat.mul_comm (256 ^ w) 256, Nat.mod_mul]
    rw [Nat.mul_comm 256 (n / 256 % 256 ^ w)]
    omega

theorem beBytes_mod (w n : Nat) : beBytes w (n % 256 ^ w) = beBytes w n := by
  induction w generalizing n with
  | zero => rfl
  | succ w ih =>
    rw [beBytes, beBytes]
    have h256 : (0:Nat) < 256 := by norm_num
    have hmod : n % 256 ^ (w + 1) % 256 = n % 256 := by
      have : (256:Nat) ∣ 256 ^ (w + 1) := dvd_pow_self 256 (Nat.succ_ne_zero w)
      exact Nat.mod_mod_of_dvd n this
    have hdiv : n % 256 ^ (w + 1) / 256 = n / 256 % 256 ^ w := by
      rw [pow_succ, Nat.mul_comm (256 ^ w) 256]
      exact Nat.mod_mul_right_div_self n 256 (256 ^ w)
    rw [hmod, hdiv, ih]

/-- The errors the storage engine can produce.  `indexIsFull` and
`indexOffsetOutOfBounds` model `IndexError` from `index.rs`,
`logOffsetOutOfBounds` models `CommitLogError::OffsetOutOfBounds` from
`commit_log.rs`, and `ioFailure` stands for any propagated
`std::io::Error`. -/
inductive Err where
  | indexIsFull : Err
  | indexOffsetOutOfBounds (offset : Nat) (index_len : Nat) : Err
  | logOffsetOutOfBounds (offset : Nat) : Err
  | ioFailure : Err
deriving DecidableEq, Repr

/-- Equality of `Except` results is decidable when both component types
have decidable equality (used to evaluate the model on concrete
scenarios). -/
instance exceptDecEq {ε α : Type} [DecidableEq ε] [DecidableEq α] :
    DecidableEq (Except ε α) := fun a b =>
  match a, b with
  | .error e, .error f =>
    if h : e = f then .isTrue (congrArg Except.error h)
    else .isFalse (fun hc => h (by injection hc))
  | .ok x, .ok y =>
    if h : x = y then .isTrue (congrArg Except.ok h)
    else .isFalse (fun hc => h (by injection hc))
  | .error _, .ok _ => .isFalse (fun hc => Except.noConfusion hc)
  | .ok _, .error _ => .isFalse (fun hc => Except.noConfusion hc)

/-- The record type `api::v1::Record { offset: u64, value: bytes }`
produced by protobuf code generation from `src/api/v1/log.proto`. -/
structure Record where
  offset : Nat
  value : List Nat
deriving DecidableEq, Repr

/-- Modelled from the spec: the proto file `src/api/v1/log.proto` and the
generated prost encoder are not part of the sources; §4.3 and §6 of the
spec treat the record payload as an opaque encoder and state that "a
plain big-endian pair" is an acceptable encoding as long as
encode/decode round-trips exactly.  We use the 8-byte big-endian offset
followed by the raw value bytes; the enclosing store entry carries the
total length. -/
def encodeRecord (r : Record) : List Nat :=
  beBytes 8 r.offset ++ r.value

/-- Modelled from the spec: decoder matching `encodeRecord`. -/
def decodeRecord (bs : List Nat) : Record :=
  { offset := fromBeBytes (bs.take 8), value := bs.drop 8 }

theorem encodeRecord_length (r : Record) :
    (encodeRecord r).length = 8 + r.value.length := by
  simp [encodeRecord, beBytes_length]

theorem decodeRecord_encodeRecord (r : Record) (h : r.offset < U64) :
    decodeRecord (encodeRecord r) = r := by
  have hlen : (beBytes 8 r.offset).length = 8 := beBytes_length 8 r.offset
  have htake : (beBytes 8 r.offset ++ r.value).take 8 = beBytes 8 r.offset := by
    rw [← hlen]; exact List.take_left _ _
  have hdrop : (beBytes 8 r.offset ++ r.value).drop 8 = r.value := by
    rw [← hlen]; exact List.drop_left _ _
  simp only [decodeRecord, encodeRecord, htake, hdrop, fromBeBytes_beBytes]
  have : r.offset % 256 ^ 8 = r.offset := Nat.mod_eq_of_lt h
  cases r; simp_all [U64]

/-! ## Store (`store.rs`)

The `Store` owns a buffered writer over its file.  Since `Store::read`
flushes the writer before reading, buffered and flushed bytes are
indistinguishable to every operation of the public API, so the model
keeps a single byte list `file` for the file contents.  `file_size`
mirrors the in-memory `file_size` field. -/

/-- Number of bytes of the length tag of a store entry (`LEN_WIDTH`). -/
def LEN_WIDTH : Nat := 8

structure Store where
  file : List Nat
  file_size : Nat
deriving DecidableEq, Repr

/-- `Store::append` output. -/
structure AppendOutput where
  appended_at : Nat
  bytes_written : Nat
deriving DecidableEq, Repr

/-- `Store::new`: captures the current file length as the size. -/
def Store.new (file : List Nat) : Store :=
  { file := file, file_size := file.length }

/-- `Store::append`: writes `[len as 8 be bytes][buffer]` at the end of
the file; `appended_at` is the file size before the write. -/
def Store.append (s : Store) (buffer : List Nat) : AppendOutput × Store :=
  ({ appended_at := s.file_size, bytes_written := LEN_WIDTH + buffer.length },
   { file := s.file ++ beBytes 8 buffer.length ++ buffer,
     file_size := s.file_size + (LEN_WIDTH + buffer.length) })

/-- `Store::read`: reads the 8-byte length tag at `position`, then that
many bytes after it.  `read_exact_at` fails (an `ioFailure` here) when
the file does not contain enough bytes. -/
def Store.read (s : Store) (position : Nat) : Except Err (List Nat) :=
  if position + 8 ≤ s.file.length then
    let entry_length := fromBeBytes ((s.file.drop position).take 8)
    if position + 8 + entry_length ≤ s.file.length then
      .ok ((s.file.drop (position + 8)).take entry_length)
    else .error .ioFailure
  else .error .ioFailure

/-- `Store::size`. -/
def Store.size (s : Store) : Nat := s.file_size

/-- `Store::close` flushes the buffer; the resulting on-disk file is the
model's `file` contents. -/
def Store.close (s : Store) : List Nat := s.file

/-! ## Index (`index.rs`)

The index owns a memory map of fixed length `max_index_bytes` and a
logical `size`.  `mmap` models the mapped bytes, `size` the `size`
field. -/

def OFFSET_WIDTH : Nat := 4
def POSITION_WIDTH : Nat := 8
def ENTRY_WIDTH : Nat := OFFSET_WIDTH + POSITION_WIDTH

structure Index where
  size : Nat
  mmap : List Nat
deriving DecidableEq, Repr

/-- `Index::new`: `size` is the file length before `set_len`, and the
memory map holds the file grown (zero-filled) or truncated to exactly
`max_index_bytes` bytes. -/
def Index.new (file : List Nat) (max_index_bytes : Nat) : Index :=
  { size := file.length,
    mmap := file.take max_index_bytes ++
      List.replicate (max_index_bytes - file.length) 0 }

/-- `Index::len`: how many entries the index contains. -/
def Index.len (i : Index) : Nat := i.size / ENTRY_WIDTH

/-- `Index::is_empty`. -/
def Index.isEmpty (i : Index) : Bool := i.size == 0

/-- `Index::is_full`. -/
def Index.isFull (i : Index) : Bool :=
  i.mmap.length < i.size + ENTRY_WIDTH

/-- `Index::write`: appends `[offset as 4 be bytes][position as 8 be
bytes]` at byte offset `size`; fails with `IndexIsFull` when the map has
no room for another entry.  `offset` is the already-truncated `u32`
argument. -/
def Index.write (i : Index) (offset : Nat) (position : Nat) :
    Except Err Index :=
  if i.isFull then .error .indexIsFull
  else .ok
    { size := i.size + ENTRY_WIDTH,
      mmap := listWrite i.mmap i.size (beBytes 4 offset ++ beBytes 8 position) }

/-- `Index::read`: returns the `position` field of the `offset`-th entry
(ordinal lookup; the stored `relative_offset` field is never read). -/
def Index.read (i : Index) (offset : Nat) : Except Err Nat :=
  if i.isEmpty || decide (i.len ≤ offset) then
    .error (.indexOffsetOutOfBounds offset i.len)
  else
    .ok (fromBeBytes (((i.mmap.drop (offset * ENTRY_WIDTH + OFFSET_WIDTH)).take
      POSITION_WIDTH)))

/-- Modelled from the spec: `Index::last_offset` is called by
`Segment::new` but its definition is not part of the sources; spec §4.2
states "`last_offset() → option<u32>`: `None` when empty; else the
`relative_offset` field of the last entry". -/
def Index.lastOffset (i : Index) : Option Nat :=
  if i.size == 0 then none
  else some (fromBeBytes (((i.mmap.drop ((i.len - 1) * ENTRY_WIDTH)).take
    OFFSET_WIDTH)))

/-- Modelled from the spec: `Index::size()` is called by
`Segment::is_maxed` but its definition is not part of the sources; spec
§4.2 states it returns the number of bytes currently used, i.e. the
`size` field. -/
def Index.sizeBytes (i : Index) : Nat := i.size

/-- `Index::close`: flushes the map to the file and truncates the file
to `size` bytes (zero-extending in the degenerate case `size >
mmap.len`, as `set_len` would). -/
def Index.close (i : Index) : List Nat :=
  i.mmap.take i.size ++ List.replicate (i.size - i.mmap.length) 0

/-! ## Segment (`segment.rs`)

A segment binds one store and one index.  The file paths of the source
are determined by `(directory, base_offset)`; the directory contents are
made explicit in `Log.close`/`Log.openDir` below, so the path fields are
not repeated here. -/

structure SegConfig where
  max_index_bytes : Nat
  max_store_bytes : Nat
  initial_offset : Nat
deriving DecidableEq, Repr

structure Segment where
  store : Store
  index : Index
  base_offset : Nat
  next_offset : Nat
  config : SegConfig
deriving DecidableEq, Repr

instance : Inhabited Segment :=
  ⟨{ store := Store.new [], index := Index.new [] 0, base_offset := 0,
     next_offset := 0, config := ⟨0, 0, 0⟩ }⟩

/-- `Segment::new`: opens (or creates, as empty) the two files
`{base_offset}.store` and `{base_offset}.index`, whose current contents
are the explicit arguments here, and reconstructs `next_offset` from the
index alone. -/
def Segment.new (base_offset : Nat) (storeFile indexFile : List Nat)
    (config : SegConfig) : Segment :=
  let index := Index.new indexFile config.max_index_bytes
  let next_offset :=
    match index.lastOffset with
    | some offset => base_offset + offset + 1
    | none => base_offset
  { store := Store.new storeFile, index := index, base_offset := base_offset,
    next_offset := next_offset, config := config }

/-- `Segment::append`: encodes the record, appends it to the store, then
writes the index entry, then advances `next_offset`.  On an index error
the store bytes have already been appended, so the (mutated) segment is
returned alongside the error.  The `as u32` cast of the source is the
explicit `% U32`. -/
def Segment.append (s : Segment) (value : List Nat) :
    Except Err Nat × Segment :=
  let offset := s.next_offset
  let buffer := encodeRecord { value := value, offset := offset }
  let out := (s.store.append buffer).1
  let store := (s.store.append buffer).2
  match s.index.write ((s.next_offset - s.base_offset) % U32) out.appended_at with
  | .error e => (.error e, { s with store := store })
  | .ok index =>
    (.ok offset,
     { s with store := store, index := index, next_offset := s.next_offset + 1 })

/-- `Segment::read`. -/
def Segment.read (s : Segment) (offset : Nat) : Except Err Record :=
  match s.index.read (offset - s.base_offset) with
  | .error e => .error e
  | .ok position =>
    match s.store.read position with
    | .error e => .error e
    | .ok bytes => .ok (decodeRecord bytes)

/-- `Segment::is_maxed`. -/
def Segment.isMaxed (s : Segment) : Bool :=
  s.config.max_store_bytes ≤ s.store.size ||
  s.config.max_index_bytes ≤ s.index.sizeBytes

/-- `Segment::close`: flushes both files; returns the on-disk contents
`(store file, index file)`. -/
def Segment.close (s : Segment) : List Nat × List Nat :=
  (s.store.close, s.index.close)

/-! ## Log (`commit_log.rs`)

This embeds `commit_log.rs`, the draft compiled into the binary
(`main.rs` declares `mod commit_log`; `commit_log_v2.rs` is not part of
the module tree).  The `RwLock` only serialises access and is invisible
to the sequential semantics.  A directory is modelled as the list of
`(base_offset, store file, index file)` triples that
`read_segments_from_disk` recovers, already sorted by ascending stem as
the source sorts them. -/

structure LogConfig where
  initial_offset : Nat
  max_store_bytes_per_segment : Nat
  max_index_bytes_per_segment : Nat
deriving DecidableEq, Repr

/-- `Config::default()`. -/
def LogConfig.default : LogConfig :=
  { initial_offset := 0, max_store_bytes_per_segment := 1024,
    max_index_bytes_per_segment := 1024 }

structure Log where
  config : LogConfig
  active_segment : Nat
  segments : List Segment
deriving DecidableEq, Repr

/-- One recovered directory entry: a base offset (the numeric stem of a
`.store` file) with the contents of the `.store` and `.index` files. -/
structure DirEntry where
  base : Nat
  storeFile : List Nat
  indexFile : List Nat
deriving DecidableEq, Repr

/-- The body of `Log::new`: build one segment per recovered directory
entry (in ascending stem order); if the directory holds none, create a
fresh first segment at `config.initial_offset`.  The active segment is
the last one. -/
def Log.openDir (entries : List DirEntry) (config : LogConfig) : Log :=
  let segConfig : SegConfig :=
    { max_index_bytes := config.max_index_bytes_per_segment,
      max_store_bytes := config.max_store_bytes_per_segment,
      initial_offset := 0 }
  let segments := entries.map fun e => Segment.new e.base e.storeFile e.indexFile segConfig
  let segments :=
    if segments.isEmpty then [Segment.new config.initial_offset [] [] segConfig]
    else segments
  { config := config, active_segment := segments.length - 1, segments := segments }

/-- `Log::new`: fallible only through I/O, which the model cannot fail. -/
def Log.new (entries : List DirEntry) (config : LogConfig) : Except Err Log :=
  .ok (Log.openDir entries config)

/-- A fresh log: `Log::new` over an empty directory. -/
def Log.newFresh (config : LogConfig) : Log :=
  Log.openDir [] config

/-- `Log::append`: appends to the active segment; if the segment is
maxed afterwards, pushes a new segment at `returned_offset + 1` — with
the hard-coded `Config { max_index_bytes: 0, max_store_bytes: 0,
initial_offset: 0 }` of the source — and advances `active_segment`.
(The source indexes `segments[active_segment]`, a panic when out of
bounds; the model totalises that lookup with `getD`.) -/
def Log.append (log : Log) (value : List Nat) : Except Err Nat × Log :=
  let seg := log.segments.getD log.active_segment default
  match seg.append value with
  | (.error e, seg') =>
    (.error e, { log with segments := log.segments.set log.active_segment seg' })
  | (.ok new_record_offset, seg') =>
    if seg'.isMaxed then
      (.ok new_record_offset,
       { log with
         segments := log.segments.set log.active_segment seg' ++
           [Segment.new (new_record_offset + 1) [] [] ⟨0, 0, 0⟩],
         active_segment := log.active_segment + 1 })
    else
      (.ok new_record_offset,
       { log with segments := log.segments.set log.active_segment seg' })

/-- `Log::read`: finds the segment whose `[base_offset, next_offset)`
range contains the offset. -/
def Log.read (log : Log) (offset : Nat) : Except Err Record :=
  match log.segments.find? fun s =>
      s.base_offset ≤ offset && offset < s.next_offset with
  | none => .error (.logOffsetOutOfBounds offset)
  | some segment => segment.read offset

/-- `Log::close`: closes every segment; the result is the directory
contents left on disk, in segment order. -/
def Log.close (log : Log) : List DirEntry :=
  log.segments.map fun s =>
    { base := s.base_offset, storeFile := (s.close).1, indexFile := (s.close).2 }

/-- `Log::lowest_offset` (the source unwraps `segments.first()`). -/
def Log.lowestOffset (log : Log) : Nat :=
  (log.segments.headD default).base_offset

/-- `Log::highest_offset` (the source unwraps `segments.last()`). -/
def Log.highestOffset (log : Log) : Nat :=
  (log.segments.getLastD default).next_offset

/-- The `end_index` loop of `Log::truncate`: `end_index` starts at 0 and
is set to `i` for every segment `i` with `next_offset <= lowest + 1`. -/
def endIndexAux (segs : List Segment) (lowest : Nat) (i : Nat) (acc : Nat) : Nat :=
  match segs with
  | [] => acc
  | s :: rest =>
    endIndexAux rest lowest (i + 1) (if s.next_offset ≤ lowest + 1 then i else acc)

/-- `Log::truncate`: drains (removes, preserving the order of the rest)
the segments with indices `[0, end_index)`.  `active_segment` is not
touched by the source. -/
def Log.truncate (log : Log) (lowest : Nat) : Log :=
  { log with segments := log.segments.drop (endIndexAux log.segments lowest 0 0) }

/-- `Log::new_segment`: pushes a segment at `config.initial_offset +
offset` built from the log's configured caps and makes it active. -/
def Log.newSegment (log : Log) (offset : Nat) : Log :=
  let segment := Segment.new (log.config.initial_offset + offset) [] []
    { max_index_bytes := log.config.max_index_bytes_per_segment,
      max_store_bytes := log.config.max_store_bytes_per_segment,
      initial_offset := offset }
  { log with segments := log.segments ++ [segment],
             active_segment := (log.segments ++ [segment]).length - 1 }

/-- Fold of `Log::append` over a list of values, stopping at the first
error; returns the final log and the assigned offsets. -/
def appendAll (log : Log) (vs : List (List Nat)) :
    Except Err (Log × List Nat) :=
  match vs with
  | [] => .ok (log, [])
  | v :: rest =>
    match log.append v with
    | (.error e, _) => .error e
    | (.ok o, log') =>
      match appendAll log' rest with
      | .error e => .error e
      | .ok (log'', os) => .ok (log'', o :: os)

/-! ## Byte-layout descriptions of reachable store and index states -/

/-- Total number of store-file bytes occupied by a list of record
values: each record costs an 8-byte length tag plus the 8-byte encoded
offset plus the value bytes. -/
def storeLen : List (List Nat) → Nat
  | [] => 0
  | v :: rest => (16 + v.length) + storeLen rest

/-- The store entry holding value `v` at absolute offset `off`. -/
def storeEntry (off : Nat) (v : List Nat) : List Nat :=
  beBytes 8 (encodeRecord { offset := off, value := v }).length ++
    encodeRecord { offset := off, value := v }

/-- The store-file contents after appending `recs` starting at absolute
offset `off`. -/
def storeBytes (off : Nat) : List (List Nat) → List Nat
  | [] => []
  | v :: rest => storeEntry off v ++ storeBytes (off + 1) rest

/-- The index entries (relative offset, store position) produced by
appending `recs`, starting at relative offset `rel` and store position
`pos`. -/
def indexPairs (rel pos : Nat) : List (List Nat) → List (Nat × Nat)
  | [] => []
  | v :: rest => (rel, pos) :: indexPairs (rel + 1) (pos + (16 + v.length)) rest

/-- Serialisation of index entries: 12 bytes each. -/
def entriesBytes : List (Nat × Nat) → List Nat
  | [] => []
  | (o, p) :: rest => beBytes 4 o ++ beBytes 8 p ++ entriesBytes rest

theorem storeLen_append (l₁ l₂ : List (List Nat)) :
    storeLen (l₁ ++ l₂) = storeLen l₁ + storeLen l₂ := by
  induction l₁ with
  | nil => simp [storeLen]
  | cons v rest ih => simp [storeLen, ih]; ring

theorem storeLen_take_le (recs : List (List Nat)) (i : Nat) :
    storeLen (recs.take i) ≤ storeLen recs := by
  conv_rhs => rw [← List.take_append_drop i recs]
  rw [storeLen_append]
  omega

theorem storeEntry_length (off : Nat) (v : List Nat) :
    (storeEntry off v).length = 16 + v.length := by
  simp [storeEntry, beBytes_length, encodeRecord_length]
  omega

theorem storeBytes_length (off : Nat) (recs : List (List Nat)) :
    (storeBytes off recs).length = storeLen recs := by
  induction recs generalizing off with
  | nil => rfl
  | cons v rest ih => simp [storeBytes, storeLen, storeEntry_length, ih]

theorem storeBytes_append (off : Nat) (l₁ l₂ : List (List Nat)) :
    storeBytes off (l₁ ++ l₂) =
      storeBytes off l₁ ++ storeBytes (off + l₁.length) l₂ := by
  induction l₁ generalizing off with
  | nil => simp [storeBytes]
  | cons v rest ih =>
    simp [storeBytes, ih]
    have : off + 1 + rest.length = off + (rest.length + 1) := by omega
    rw [this]

theorem indexPairs_length (rel pos : Nat) (recs : List (List Nat)) :
    (indexPairs rel pos recs).length = recs.length := by
  induction recs generalizing rel pos with
  | nil => rfl
  | cons v rest ih => simp [indexPairs, ih]

theorem indexPairs_append (rel pos : Nat) (l₁ l₂ : List (List Nat)) :
    indexPairs rel pos (l₁ ++ l₂) =
      indexPairs rel pos l₁ ++
        indexPairs (rel + l₁.length) (pos + storeLen l₁) l₂ := by
  induction l₁ generalizing rel pos with
  | nil => simp [indexPairs, storeLen]
  | cons v rest ih =>
    simp [indexPairs, storeLen, ih]
    congr 1 <;> omega

theorem indexPairs_getD (rel pos : Nat) (recs : List (List Nat)) (i : Nat)
    (hi : i < recs.length) :
    (indexPairs rel pos recs).getD i (0, 0) =
      (rel + i, pos + storeLen (recs.take i)) := by
  induction recs generalizing rel pos i with
  | nil => simp at hi
  | cons v rest ih =>
    cases i with
    | zero => simp [indexPairs, storeLen]
    | succ j =>
      have hj : j < rest.length := by simpa using hi
      simp only [indexPairs, List.getD_cons_succ, List.take_succ_cons, storeLen]
      rw [ih _ _ _ hj]
      rw [Prod.ext_iff]
      constructor <;> (simp; omega)

theorem entriesBytes_length (es : List (Nat × Nat)) :
    (entriesBytes es).length = ENTRY_WIDTH * es.length := by
  induction es with
  | nil => rfl
  | cons e rest ih =>
    obtain ⟨o, p⟩ := e
    simp [entriesBytes, beBytes_length, ih, ENTRY_WIDTH, OFFSET_WIDTH,
      POSITION_WIDTH]
    ring

theorem entriesBytes_append (l₁ l₂ : List (Nat × Nat)) :
    entriesBytes (l₁ ++ l₂) = entriesBytes l₁ ++ entriesBytes l₂ := by
  induction l₁ with
  | nil => rfl
  | cons e rest ih =>
    obtain ⟨o, p⟩ := e
    simp [entriesBytes, ih]

theorem take_append_length {α : Type} (l₁ l₂ : List α) (n : Nat)
    (h : l₁.length = n) : (l₁ ++ l₂).take n = l₁ := by
  subst h; exact List.take_left _ _

theorem drop_append_length {α : Type} (l₁ l₂ : List α) (n : Nat)
    (h : l₁.length = n) : (l₁ ++ l₂).drop n = l₂ := by
  subst h; exact List.drop_left _ _

/-- Representation of an index state: `es` are the entries written so
far (in write order), `max` the mapped length. -/
def IdxRep (idx : Index) (es : List (Nat × Nat)) (max : Nat) : Prop :=
  idx.size = ENTRY_WIDTH * es.length ∧
  idx.mmap.length = max ∧
  ∃ z, idx.mmap = entriesBytes es ++ List.replicate z 0

theorem idxRep_new (max : Nat) : IdxRep (Index.new [] max) [] max := by
  refine ⟨rfl, ?_, max, ?_⟩ <;> simp [Index.new, entriesBytes]

theorem idxRep_reopen (idx : Index) (es : List (Nat × Nat)) (max max' : Nat)
    (h : IdxRep idx es max) (hle : ENTRY_WIDTH * es.length ≤ max') :
    IdxRep (Index.new idx.close max') es max' := by
  obtain ⟨hsize, hlen, z, hmm⟩ := h
  have hE : (entriesBytes es).length = ENTRY_WIDTH * es.length :=
    entriesBytes_length es
  have hclose : idx.close = entriesBytes es := by
    rw [Index.close, hsize, hmm]
    rw [take_append_length _ _ _ hE]
    have hz : ENTRY_WIDTH * es.length -
        (entriesBytes es ++ List.replicate z 0).length = 0 := by
      simp [hE]
    rw [hz]
    simp
  refine ⟨?_, ?_, max' - ENTRY_WIDTH * es.length, ?_⟩
  · simp [Index.new, hclose, hE]
  · simp only [Index.new, hclose]
    rw [List.length_append, List.length_take, List.length_replicate, hE]
    omega
  · simp only [Index.new, hclose]
    rw [List.take_of_length_le (by rw [hE]; exact hle), hE]

/-- Slicing the `position` field of entry `i` out of serialised index
entries. -/
theorem entriesBytes_position_field (es : List (Nat × Nat)) (i : Nat)
    (hi : i < es.length) (tail : List Nat) :
    ((entriesBytes es ++ tail).drop (i * ENTRY_WIDTH + OFFSET_WIDTH)).take
        POSITION_WIDTH = beBytes 8 (es.getD i (0, 0)).2 := by
  induction es generalizing i tail with
  | nil => simp at hi
  | cons e rest ih =>
    obtain ⟨o, p⟩ := e
    cases i with
    | zero =>
      simp only [entriesBytes, Nat.zero_mul, Nat.zero_add, List.getD_cons_zero]
      rw [List.append_assoc, List.append_assoc]
      rw [drop_append_length _ _ OFFSET_WIDTH (beBytes_length 4 o)]
      rw [take_append_length _ _ POSITION_WIDTH (beBytes_length 8 p)]
    | succ j =>
      have hj : j < rest.length := by simpa using hi
      simp only [entriesBytes, List.getD_cons_succ, List.append_assoc]
      have harith : (j + 1) * ENTRY_WIDTH + OFFSET_WIDTH =
          ENTRY_WIDTH + (j * ENTRY_WIDTH + OFFSET_WIDTH) := by
        simp [ENTRY_WIDTH, OFFSET_WIDTH, POSITION_WIDTH]; ring
      rw [harith, ← List.drop_drop]
      have hentry : (beBytes 4 o ++ (beBytes 8 p ++ (entriesBytes rest ++
          tail))).drop ENTRY_WIDTH = entriesBytes rest ++ tail := by
        rw [← List.append_assoc]
        refine drop_append_length _ _ _ ?_
        simp [beBytes_length, ENTRY_WIDTH, OFFSET_WIDTH, POSITION_WIDTH]
      rw [hentry, ih j hj tail]

/-- Slicing the `relative_offset` field of entry `i` out of serialised
index entries. -/
theorem entriesBytes_offset_field (es : List (Nat × Nat)) (i : Nat)
    (hi : i < es.length) (tail : List Nat) :
    ((entriesBytes es ++ tail).drop (i * ENTRY_WIDTH)).take OFFSET_WIDTH =
      beBytes 4 (es.getD i (0, 0)).1 := by
  induction es generalizing i tail with
  | nil => simp at hi
  | cons e rest ih =>
    obtain ⟨o, p⟩ := e
    cases i with
    | zero =>
      simp only [entriesBytes, Nat.zero_mul, List.drop_zero, List.getD_cons_zero]
      rw [List.append_assoc, List.append_assoc]
      rw [take_append_length _ _ OFFSET_WIDTH (beBytes_length 4 o)]
    | succ j =>
      have hj : j < rest.length := by simpa using hi
      simp only [entriesBytes, List.getD_cons_succ, List.append_assoc]
      have harith : (j + 1) * ENTRY_WIDTH = ENTRY_WIDTH + j * ENTRY_WIDTH := by
        ring
      rw [harith, ← List.drop_drop]
      have hentry : (beBytes 4 o ++ (beBytes 8 p ++ (entriesBytes rest ++
          tail))).drop ENTRY_WIDTH = entriesBytes rest ++ tail := by
        rw [← List.append_assoc]
        refine drop_append_length _ _ _ ?_
        simp [beBytes_length, ENTRY_WIDTH, OFFSET_WIDTH, POSITION_WIDTH]
      rw [hentry, ih j hj tail]

theorem idxRep_read (idx : Index) (es : List (Nat × Nat)) (max i : Nat)
    (h : IdxRep idx es max) (hi : i < es.length) :
    idx.read i = .ok ((es.getD i (0, 0)).2 % U64) := by
  obtain ⟨hsize, hlen, z, hmm⟩ := h
  have h12 : ENTRY_WIDTH = 12 := rfl
  have hlenpos : idx.len = es.length := by
    rw [Index.len, hsize, h12]
    exact Nat.mul_div_cancel_left _ (by norm_num)
  have hempty : idx.isEmpty = false := by
    rw [Index.isEmpty, hsize, h12]
    simp only [beq_eq_false_iff_ne, ne_eq]
    omega
  have hcond : (idx.isEmpty || decide (idx.len ≤ i)) = false := by
    rw [hempty]
    simp only [Bool.false_or, decide_eq_false_iff_not]
    omega
  rw [Index.read, hcond, if_neg Bool.false_ne_true, hmm]
  rw [entriesBytes_position_field es i hi (List.replicate z 0)]
  rw [fromBeBytes_beBytes]
  rfl

theorem drop_append_add {α : Type} (l₁ l₂ : List α) (m : Nat) :
    (l₁ ++ l₂).drop (l₁.length + m) = l₂.drop m := by
  induction l₁ with
  | nil => simp
  | cons a t ih => simpa [Nat.succ_add] using ih

theorem drop_replicate_sub {α : Type} (z n : Nat) (a : α) :
    (List.replicate z a).drop n = List.replicate (z - n) a := by
  induction z generalizing n with
  | zero => simp
  | succ z ih =>
    cases n with
    | zero => simp
    | succ m => simpa [List.replicate_succ] using ih m

theorem idxRep_write_ok (idx : Index) (es : List (Nat × Nat)) (max o p : Nat)
    (h : IdxRep idx es max) (hroom : idx.size + ENTRY_WIDTH ≤ max) :
    ∃ idx', idx.write o p = .ok idx' ∧ IdxRep idx' (es ++ [(o, p)]) max := by
  obtain ⟨hsize, hlen, z, hmm⟩ := h
  have hE : (entriesBytes es).length = ENTRY_WIDTH * es.length :=
    entriesBytes_length es
  have hz : ENTRY_WIDTH ≤ z := by
    have : idx.mmap.length = (entriesBytes es).length + z := by simp [hmm]
    omega
  have hfull : idx.isFull = false := by
    simp only [Index.isFull, decide_eq_false_iff_not]
    omega
  refine ⟨{ size := idx.size + ENTRY_WIDTH,
            mmap := listWrite idx.mmap idx.size (beBytes 4 o ++ beBytes 8 p) },
          ?_, ?_, ?_, z - ENTRY_WIDTH, ?_⟩
  · rw [Index.write, hfull]
    simp
  · simp [List.length_append, hsize]
    ring
  · -- mapped length is preserved by an in-bounds write
    have h1 : (idx.mmap.take idx.size).length = idx.size := by
      rw [List.length_take]
      omega
    simp only [listWrite, List.length_append, h1, List.length_drop,
      beBytes_length, List.length_replicate]
    have h12 : ENTRY_WIDTH = 12 := rfl
    omega
  · -- the new mapped contents
    have htake : idx.mmap.take idx.size = entriesBytes es := by
      rw [hmm, hsize]
      exact take_append_length _ _ _ hE
    have hdrop : idx.mmap.drop (idx.size + (beBytes 4 o ++ beBytes 8 p).length) =
        List.replicate (z - ENTRY_WIDTH) 0 := by
      have hbs : (beBytes 4 o ++ beBytes 8 p).length = ENTRY_WIDTH := by
        simp [beBytes_length, ENTRY_WIDTH, OFFSET_WIDTH, POSITION_WIDTH]
      rw [hmm, hbs, hsize, ← hE, drop_append_add, drop_replicate_sub]
    rw [listWrite, htake, hdrop, entriesBytes_append]
    simp [entriesBytes]

theorem idxRep_write_fail (idx : Index) (es : List (Nat × Nat)) (max o p : Nat)
    (h : IdxRep idx es max) (hfull : max < idx.size + ENTRY_WIDTH) :
    idx.write o p = .error .indexIsFull := by
  obtain ⟨hsize, hlen, z, hmm⟩ := h
  have : idx.isFull = true := by
    simp only [Index.isFull, decide_eq_true_eq]
    omega
  rw [Index.write, this]
  simp

/-- Fold of `Index::write` over a list of `(offset, position)` pairs. -/
def Index.writeAll (idx : Index) (ps : List (Nat × Nat)) : Except Err Index :=
  match ps with
  | [] => .ok idx
  | (o, p) :: rest =>
    match idx.write o p with
    | .error e => .error e
    | .ok idx' => idx'.writeAll rest

theorem writeAll_rep (ps : List (Nat × Nat)) (idx : Index)
    (es : List (Nat × Nat)) (max : Nat) (h : IdxRep idx es max) :
    (ENTRY_WIDTH * (es.length + ps.length) ≤ max →
      ∃ idx', idx.writeAll ps = .ok idx' ∧ IdxRep idx' (es ++ ps) max) ∧
    (max < ENTRY_WIDTH * (es.length + ps.length) →
      (idx.writeAll ps).isOk = false) := by
  induction ps generalizing idx es with
  | nil =>
    refine ⟨fun _ => ⟨idx, rfl, by simpa using h⟩, fun hlt => ?_⟩
    exfalso
    obtain ⟨hsize, hlen, z, hmm⟩ := h
    have hE : (entriesBytes es).length = ENTRY_WIDTH * es.length :=
      entriesBytes_length es
    have : idx.mmap.length = (entriesBytes es).length + z := by simp [hmm]
    simp at hlt
    omega
  | cons hd rest ih =>
    obtain ⟨o, p⟩ := hd
    have hsize := h.1
    constructor
    · intro hle
      have hroom : idx.size + ENTRY_WIDTH ≤ max := by
        rw [hsize]
        have : ENTRY_WIDTH * es.length + ENTRY_WIDTH ≤
            ENTRY_WIDTH * (es.length + (rest.length + 1)) := by
          have := Nat.mul_le_mul_left ENTRY_WIDTH
            (show es.length + 1 ≤ es.length + (rest.length + 1) by omega)
          simpa [Nat.mul_add] using this
        simp only [List.length_cons] at hle
        omega
      obtain ⟨idx₁, hw, hrep₁⟩ := idxRep_write_ok idx es max o p h hroom
      obtain ⟨idx', hwa, hrep'⟩ := (ih idx₁ (es ++ [(o, p)]) hrep₁).1 (by
        have hlen2 : (es ++ [(o, p)]).length = es.length + 1 := by simp
        rw [hlen2]
        simp only [List.length_cons] at hle
        have harith : es.length + 1 + rest.length = es.length + (rest.length + 1) := by
          omega
        rw [harith]
        exact hle)
      refine ⟨idx', ?_, ?_⟩
      · rw [Index.writeAll, hw]
        exact hwa
      · simpa using hrep'
    · intro hgt
      by_cases hfit : idx.size + ENTRY_WIDTH ≤ max
      · obtain ⟨idx₁, hw, hrep₁⟩ := idxRep_write_ok idx es max o p h hfit
        have hfail := (ih idx₁ (es ++ [(o, p)]) hrep₁).2 (by
          have hlen2 : (es ++ [(o, p)]).length = es.length + 1 := by simp
          rw [hlen2]
          simp only [List.length_cons] at hgt
          have harith : es.length + 1 + rest.length = es.length + (rest.length + 1) := by
            omega
          rw [harith]
          exact hgt)
        rw [Index.writeAll, hw]
        exact hfail
      · have hw := idxRep_write_fail idx es max o p h (by omega)
        rw [Index.writeAll, hw]
        rfl

theorem idxRep_lastOffset_nil (idx : Index) (max : Nat)
    (h : IdxRep idx [] max) : idx.lastOffset = none := by
  obtain ⟨hsize, hlen, z, hmm⟩ := h
  simp at hsize
  simp [Index.lastOffset, hsize]

theorem idxRep_lastOffset (idx : Index) (es : List (Nat × Nat)) (max : Nat)
    (h : IdxRep idx es max) (hne : es ≠ []) :
    idx.lastOffset = some ((es.getD (es.length - 1) (0, 0)).1 % U32) := by
  obtain ⟨hsize, hlen, z, hmm⟩ := h
  have h12 : ENTRY_WIDTH = 12 := rfl
  have hespos : 0 < es.length := List.length_pos.mpr hne
  have hlenpos : idx.len = es.length := by
    rw [Index.len, hsize, h12]
    exact Nat.mul_div_cancel_left _ (by norm_num)
  have hne0 : (idx.size == 0) = false := by
    rw [hsize, h12]
    simp only [beq_eq_false_iff_ne, ne_eq]
    omega
  rw [Index.lastOffset, hne0, if_neg Bool.false_ne_true, hlenpos, hmm]
  rw [entriesBytes_offset_field es (es.length - 1) (by omega) (List.replicate z 0)]
  rw [fromBeBytes_beBytes]
  rfl

theorem index_write_error (idx : Index) (o p : Nat) (e : Err)
    (h : idx.write o p = .error e) : e = .indexIsFull := by
  rw [Index.write] at h
  by_cases hf : idx.isFull
  · rw [if_pos hf] at h
    injection h with h'
    exact h'.symm
  · rw [if_neg hf] at h
    exact absurd h (by simp)

/-! ## Segment representation -/

/-- Representation of a segment state reachable by appending `recs`
(record values, oldest first) to a fresh segment at base offset
`base`. -/
def SegRep (s : Segment) (base : Nat) (recs : List (List Nat)) : Prop :=
  s.base_offset = base ∧
  s.next_offset = base + recs.length ∧
  IdxRep s.index (indexPairs 0 0 recs) s.config.max_index_bytes ∧
  s.store.file = storeBytes base recs ∧
  s.store.file_size = storeLen recs

theorem segRep_fresh (base : Nat) (c : SegConfig) :
    SegRep (Segment.new base [] [] c) base [] := by
  have hidx : Index.new ([] : List Nat) c.max_index_bytes =
      { size := 0, mmap := List.replicate c.max_index_bytes 0 } := by
    simp [Index.new]
  refine ⟨rfl, ?_, ?_, rfl, rfl⟩
  · show (Segment.new base [] [] c).next_offset = base + 0
    rw [Segment.new]
    simp only [hidx]
    have : Index.lastOffset { size := 0, mmap := List.replicate c.max_index_bytes 0 } =
        none := by
      simp [Index.lastOffset]
    simp [this]
  · show IdxRep (Index.new [] c.max_index_bytes) (indexPairs 0 0 []) _
    simpa [indexPairs] using idxRep_new c.max_index_bytes

theorem idxRep_congr (idx : Index) (es₁ es₂ : List (Nat × Nat)) (max : Nat)
    (h : IdxRep idx es₁ max) (hlen : es₁.length = es₂.length)
    (hbytes : entriesBytes es₁ = entriesBytes es₂) : IdxRep idx es₂ max := by
  obtain ⟨a, b, z, c⟩ := h
  exact ⟨by rw [a, hlen], b, z, by rw [c, hbytes]⟩

/-- The serialised index bytes cannot see the `u32` truncation of the
relative offset. -/
theorem entriesBytes_fst_mod (es : List (Nat × Nat)) (o p : Nat) :
    entriesBytes (es ++ [(o % U32, p)]) = entriesBytes (es ++ [(o, p)]) := by
  rw [entriesBytes_append, entriesBytes_append]
  simp only [entriesBytes]
  rw [show U32 = 256 ^ 4 from rfl, beBytes_mod]

theorem segRep_append_ok (s : Segment) (base : Nat) (recs : List (List Nat))
    (v : List Nat) (h : SegRep s base recs)
    (hroom : s.index.size + ENTRY_WIDTH ≤ s.config.max_index_bytes) :
    (s.append v).1 = .ok (base + recs.length) ∧
    SegRep (s.append v).2 base (recs ++ [v]) := by
  obtain ⟨hbase, hnext, hidx, hfile, hfsize⟩ := h
  have hrel : (s.next_offset - s.base_offset) % U32 = recs.length % U32 := by
    rw [hnext, hbase]
    congr 1
    omega
  obtain ⟨idx₁, hw, hrep₁⟩ :=
    idxRep_write_ok s.index (indexPairs 0 0 recs) s.config.max_index_bytes
      (recs.length % U32) s.store.file_size hidx hroom
  have hpairs : indexPairs 0 0 (recs ++ [v]) =
      indexPairs 0 0 recs ++ [(recs.length, storeLen recs)] := by
    rw [indexPairs_append]
    simp [indexPairs]
  have hrep₁' : IdxRep idx₁ (indexPairs 0 0 (recs ++ [v]))
      s.config.max_index_bytes := by
    rw [hpairs]
    refine idxRep_congr _ _ _ _ hrep₁ (by simp) ?_
    rw [hfsize]
    exact entriesBytes_fst_mod _ _ _
  have happ : s.append v = (.ok s.next_offset,
      { s with
        store := (s.store.append
          (encodeRecord { value := v, offset := s.next_offset })).2,
        index := idx₁,
        next_offset := s.next_offset + 1 }) := by
    simp only [Segment.append, Store.append]
    rw [hrel, hw]
  rw [happ]
  refine ⟨by rw [hnext], hbase, ?_, hrep₁', ?_, ?_⟩
  · show s.next_offset + 1 = base + (recs ++ [v]).length
    rw [hnext]
    simp only [List.length_append, List.length_cons, List.length_nil]
    omega
  · show (s.store.append _).2.file = storeBytes base (recs ++ [v])
    simp only [Store.append]
    rw [hfile, storeBytes_append]
    simp only [storeBytes, storeEntry, hnext, List.append_nil]
    rw [List.append_assoc]
  · show (s.store.append _).2.file_size = storeLen (recs ++ [v])
    simp only [Store.append]
    rw [hfsize, storeLen_append]
    simp only [storeLen, encodeRecord_length, LEN_WIDTH]
    omega

theorem drop_cons_getD {α : Type} (l : List α) (d : α) (i : Nat)
    (hi : i < l.length) : l.drop i = l.getD i d :: l.drop (i + 1) := by
  rw [List.drop_eq_getElem_cons hi]
  congr 1
  exact (List.getD_eq_getElem l d hi).symm

theorem storeBytes_split (recs : List (List Nat)) (base i : Nat)
    (hi : i < recs.length) :
    storeBytes base recs =
      storeBytes base (recs.take i) ++
        (beBytes 8 (encodeRecord { offset := base + i, value := recs.getD i [] }).length ++
          (encodeRecord { offset := base + i, value := recs.getD i [] } ++
            storeBytes (base + i + 1) (recs.drop (i + 1)))) := by
  conv_lhs => rw [← List.take_append_drop i recs]
  rw [storeBytes_append]
  have hlen : (recs.take i).length = i := by rw [List.length_take]; omega
  rw [hlen, drop_cons_getD recs [] i hi]
  simp only [storeBytes, storeEntry]
  rw [List.append_assoc]

theorem storeLen_split (recs : List (List Nat)) (i : Nat)
    (hi : i < recs.length) :
    storeLen recs = storeLen (recs.take i) + (16 + (recs.getD i []).length) +
      storeLen (recs.drop (i + 1)) := by
  conv_lhs => rw [← List.take_append_drop i recs]
  rw [storeLen_append, drop_cons_getD recs [] i hi]
  simp only [storeLen]
  omega

theorem segRep_read (s : Segment) (base : Nat) (recs : List (List Nat))
    (i : Nat) (h : SegRep s base recs) (hi : i < recs.length)
    (hlen : storeLen recs < U64) (hoff : base + recs.length ≤ U64) :
    s.read (base + i) = .ok { offset := base + i, value := recs.getD i [] } := by
  obtain ⟨hbase, hnext, hidx, hfile, hfsize⟩ := h
  have hiplen : i < (indexPairs 0 0 recs).length := by
    rw [indexPairs_length]; exact hi
  have hread := idxRep_read s.index (indexPairs 0 0 recs)
    s.config.max_index_bytes i hidx hiplen
  have hpos : (indexPairs 0 0 recs).getD i (0, 0) =
      (i, storeLen (recs.take i)) := by
    rw [indexPairs_getD 0 0 recs i hi]
    simp
  have hple : storeLen (recs.take i) ≤ storeLen recs := storeLen_take_le recs i
  have hmod : storeLen (recs.take i) % U64 = storeLen (recs.take i) :=
    Nat.mod_eq_of_lt (lt_of_le_of_lt hple hlen)
  rw [hpos] at hread
  simp only [hmod] at hread
  have harg : base + i - s.base_offset = i := by rw [hbase]; omega
  rw [Segment.read, harg, hread]
  -- now the store read
  have hsplit := storeBytes_split recs base i hi
  have htotal := storeLen_split recs i hi
  have hfilelen : s.store.file.length = storeLen recs := by
    rw [hfile, storeBytes_length]
  have hA : (storeBytes base (recs.take i)).length = storeLen (recs.take i) :=
    storeBytes_length _ _
  have henclen : (encodeRecord { offset := base + i, value := recs.getD i [] }).length =
      8 + (recs.getD i []).length := encodeRecord_length _
  have hdropP : s.store.file.drop (storeLen (recs.take i)) =
      beBytes 8 (encodeRecord { offset := base + i, value := recs.getD i [] }).length ++
        (encodeRecord { offset := base + i, value := recs.getD i [] } ++
          storeBytes (base + i + 1) (recs.drop (i + 1))) := by
    rw [hfile, hsplit]
    exact drop_append_length _ _ _ hA
  have htag : (s.store.file.drop (storeLen (recs.take i))).take 8 =
      beBytes 8 (encodeRecord { offset := base + i, value := recs.getD i [] }).length := by
    rw [hdropP]
    exact take_append_length _ _ _ (beBytes_length _ _)
  have htagval : fromBeBytes ((s.store.file.drop (storeLen (recs.take i))).take 8) =
      8 + (recs.getD i []).length := by
    rw [htag, fromBeBytes_beBytes, henclen]
    have : 8 + (recs.getD i []).length < 256 ^ 8 := by
      have hU : U64 = 256 ^ 8 := rfl
      omega
    exact Nat.mod_eq_of_lt this
  have hdropP8 : s.store.file.drop (storeLen (recs.take i) + 8) =
      encodeRecord { offset := base + i, value := recs.getD i [] } ++
        storeBytes (base + i + 1) (recs.drop (i + 1)) := by
    rw [hfile, hsplit, ← List.append_assoc]
    refine drop_append_length _ _ _ ?_
    rw [List.length_append, hA, beBytes_length]
  have hcontent : (s.store.file.drop (storeLen (recs.take i) + 8)).take
      (8 + (recs.getD i []).length) =
      encodeRecord { offset := base + i, value := recs.getD i [] } := by
    rw [hdropP8]
    exact take_append_length _ _ _ henclen
  simp only [Store.read]
  rw [if_pos (show storeLen (recs.take i) + 8 ≤ s.store.file.length by omega)]
  simp only [htagval]
  rw [if_pos (by omega)]
  simp only [hcontent]
  rw [decodeRecord_encodeRecord _ (by simp; omega)]

theorem segRep_append_fail (s : Segment) (base : Nat) (recs : List (List Nat))
    (v : List Nat) (h : SegRep s base recs)
    (hfull : s.config.max_index_bytes < s.index.size + ENTRY_WIDTH) :
    (s.append v).1 = .error .indexIsFull := by
  obtain ⟨hbase, hnext, hidx, hfile, hfsize⟩ := h
  have hw := idxRep_write_fail s.index (indexPairs 0 0 recs)
    s.config.max_index_bytes ((s.next_offset - s.base_offset) % U32)
    s.store.file_size hidx hfull
  simp only [Segment.append, Store.append]
  rw [hw]

theorem segRep_close_reopen (s : Segment) (base : Nat)
    (recs : List (List Nat)) (h : SegRep s base recs) (hn : recs.length ≤ U32)
    (c' : SegConfig) (hmax : ENTRY_WIDTH * recs.length ≤ c'.max_index_bytes) :
    SegRep (Segment.new base (s.close).1 (s.close).2 c') base recs := by
  obtain ⟨hbase, hnext, hidx, hfile, hfsize⟩ := h
  have hclose : s.close = (s.store.file, s.index.close) := rfl
  have hidx' : IdxRep (Index.new s.index.close c'.max_index_bytes)
      (indexPairs 0 0 recs) c'.max_index_bytes := by
    refine idxRep_reopen s.index _ s.config.max_index_bytes _ hidx ?_
    rw [indexPairs_length]
    exact hmax
  refine ⟨rfl, ?_, ?_, ?_, ?_⟩
  · show (Segment.new base (s.close).1 (s.close).2 c').next_offset =
      base + recs.length
    have heq : Segment.new base (s.close).1 (s.close).2 c' =
        Segment.new base s.store.file s.index.close c' := rfl
    rw [heq]
    cases recs with
    | nil =>
      have hlast : (Index.new s.index.close c'.max_index_bytes).lastOffset =
          none :=
        idxRep_lastOffset_nil _ _ (by simpa [indexPairs] using hidx')
      simp only [Segment.new, hlast]
      simp
    | cons w ws =>
      have hlast : (Index.new s.index.close c'.max_index_bytes).lastOffset =
          some ((w :: ws).length - 1) := by
        rw [idxRep_lastOffset _ _ _ hidx' (by simp [indexPairs])]
        rw [show (indexPairs 0 0 (w :: ws)).length - 1 =
          (w :: ws).length - 1 from by rw [indexPairs_length]]
        rw [indexPairs_getD 0 0 (w :: ws) ((w :: ws).length - 1) (by simp)]
        have hlt : ws.length < U32 := by
          simp only [List.length_cons] at hn
          omega
        simp [Nat.mod_eq_of_lt hlt]
      simp only [Segment.new, hlast]
      simp only [List.length_cons]
      omega
  · show IdxRep (Index.new (s.close).2 c'.max_index_bytes) _ _
    exact hidx'
  · show (Store.new (s.close).1).file = storeBytes base recs
    simpa [Store.new] using hfile
  · show (Store.new (s.close).1).file_size = storeLen recs
    simp only [Store.new]
    show s.store.file.length = storeLen recs
    rw [hfile, storeBytes_length]

theorem segment_append_config (s : Segment) (v : List Nat) :
    (s.append v).2.config = s.config := by
  simp only [Segment.append, Store.append]
  rcases hw : s.index.write ((s.next_offset - s.base_offset) % U32)
    s.store.file_size with e | i <;> simp

/-! ## Log representation -/

/-- The per-segment configuration `Log::new` and `Log::new_segment`
derive from the log configuration. -/
def mainSegConfig (cfg : LogConfig) : SegConfig :=
  { max_index_bytes := cfg.max_index_bytes_per_segment,
    max_store_bytes := cfg.max_store_bytes_per_segment,
    initial_offset := 0 }

/-- The states `Log::append` can reach from a fresh log when every
append so far succeeded: either a single segment holding all records,
or — after the active segment maxed out on the very last append — that
segment plus the empty rollover segment that `Log::append` creates with
the hard-coded zero configuration. -/
def LogRep (log : Log) (cfg : LogConfig) (recs : List (List Nat)) : Prop :=
  (log.active_segment = 0 ∧ ∃ s, log.segments = [s] ∧
    SegRep s cfg.initial_offset recs ∧ s.config = mainSegConfig cfg) ∨
  (log.active_segment = 1 ∧ ∃ s t, log.segments = [s, t] ∧
    SegRep s cfg.initial_offset recs ∧ s.config = mainSegConfig cfg ∧
    SegRep t (cfg.initial_offset + recs.length) [] ∧ t.config = ⟨0, 0, 0⟩)

theorem logRep_fresh (cfg : LogConfig) : LogRep (Log.newFresh cfg) cfg [] := by
  left
  refine ⟨rfl, Segment.new cfg.initial_offset [] [] (mainSegConfig cfg),
    rfl, segRep_fresh _ _, rfl⟩

theorem logRep_append_ok (log : Log) (cfg : LogConfig)
    (recs : List (List Nat)) (v : List Nat) (o : Nat) (log' : Log)
    (h : LogRep log cfg recs) (happ : log.append v = (.ok o, log')) :
    o = cfg.initial_offset + recs.length ∧ LogRep log' cfg (recs ++ [v]) := by
  rcases h with ⟨hact, s, hsegs, hrep, hcfg⟩ | ⟨hact, s, t, hsegs, hrep, hcfg, hrept, htcfg⟩
  · -- single-segment state; the append targets `s`
    have hseg : log.segments.getD log.active_segment default = s := by
      rw [hsegs, hact]
      rfl
    by_cases hroom : s.index.size + ENTRY_WIDTH ≤ s.config.max_index_bytes
    · obtain ⟨hok, hrep'⟩ :=
        segRep_append_ok s cfg.initial_offset recs v hrep hroom
      have hpair : s.append v = (.ok (cfg.initial_offset + recs.length),
          (s.append v).2) := by
        conv_lhs => rw [show s.append v = ((s.append v).1, (s.append v).2) from rfl]
        rw [hok]
      rw [Log.append, hseg, hpair] at happ
      simp only at happ
      by_cases hmaxed : ((s.append v).2).isMaxed
      · rw [if_pos hmaxed, Prod.mk.injEq] at happ
        obtain ⟨ho, hlog⟩ := happ
        have ho' : o = cfg.initial_offset + recs.length := by
          injection ho with hh
          exact hh.symm
        refine ⟨ho', Or.inr ⟨?_, (s.append v).2,
          Segment.new (cfg.initial_offset + recs.length + 1) [] [] ⟨0, 0, 0⟩,
          ?_, hrep', ?_, ?_, rfl⟩⟩
        · rw [← hlog]
          simp [hact]
        · rw [← hlog]
          simp only [hsegs, hact]
          rfl
        · rw [segment_append_config]
          exact hcfg
        · have hb : cfg.initial_offset + (recs ++ [v]).length =
              cfg.initial_offset + recs.length + 1 := by
            simp
            omega
          rw [hb]
          exact segRep_fresh _ _
      · rw [if_neg hmaxed, Prod.mk.injEq] at happ
        obtain ⟨ho, hlog⟩ := happ
        have ho' : o = cfg.initial_offset + recs.length := by
          injection ho with hh
          exact hh.symm
        refine ⟨ho', Or.inl ⟨?_, (s.append v).2, ?_, hrep', ?_⟩⟩
        · rw [← hlog]
          simp [hact]
        · rw [← hlog]
          simp only [hsegs, hact]
          rfl
        · rw [segment_append_config]
          exact hcfg
    · exfalso
      have hfail := segRep_append_fail s cfg.initial_offset recs v hrep (by omega)
      have hpair : s.append v = (.error .indexIsFull, (s.append v).2) := by
        conv_lhs => rw [show s.append v = ((s.append v).1, (s.append v).2) from rfl]
        rw [hfail]
      rw [Log.append, hseg, hpair] at happ
      simp only at happ
      have := congrArg Prod.fst happ
      simp at this
  · -- two-segment state: the active segment is the empty zero-capacity
    -- rollover segment, so the append fails
    exfalso
    have hseg : log.segments.getD log.active_segment default = t := by
      rw [hsegs, hact]
      rfl
    have htsize : t.index.size = 0 := by
      have := hrept.2.2.1.1
      simpa [indexPairs] using this
    have hfail := segRep_append_fail t (cfg.initial_offset + recs.length) [] v
      hrept (by rw [htcfg, htsize]; simp [ENTRY_WIDTH, OFFSET_WIDTH, POSITION_WIDTH])
    have hpair : t.append v = (.error .indexIsFull, (t.append v).2) := by
      conv_lhs => rw [show t.append v = ((t.append v).1, (t.append v).2) from rfl]
      rw [hfail]
    rw [Log.append, hseg, hpair] at happ
    simp only at happ
    have := congrArg Prod.fst happ
    simp at this

theorem appendAll_rep (vs : List (List Nat)) (log : Log) (cfg : LogConfig)
    (recs : List (List Nat)) (log' : Log) (os : List Nat)
    (h : LogRep log cfg recs) (happ : appendAll log vs = .ok (log', os)) :
    LogRep log' cfg (recs ++ vs) ∧
    os = List.range' (cfg.initial_offset + recs.length) vs.length := by
  induction vs generalizing log recs os with
  | nil =>
    rw [appendAll] at happ
    obtain ⟨h1, h2⟩ := Prod.mk.injEq .. ▸ (Except.ok.injEq _ _).mp happ
    refine ⟨?_, by rw [← h2]; rfl⟩
    rw [← h1]
    simpa using h
  | cons v rest ih =>
    rw [appendAll] at happ
    rcases ha : log.append v with ⟨res, log₁⟩
    rw [ha] at happ
    cases res with
    | error e => simp at happ
    | ok o =>
      simp only at happ
      rcases hrec : appendAll log₁ rest with e | p
      · rw [hrec] at happ
        simp at happ
      · obtain ⟨log₂, os₂⟩ := p
        rw [hrec] at happ
        simp only [Except.ok.injEq, Prod.mk.injEq] at happ
        obtain ⟨hl2, hos⟩ := happ
        obtain ⟨ho, h₁⟩ := logRep_append_ok log cfg recs v o log₁ h ha
        obtain ⟨hrep₂, hos₂⟩ := ih log₁ (recs ++ [v]) os₂ h₁ (by rw [hrec, hl2])
        constructor
        · have hassoc : recs ++ [v] ++ rest = recs ++ (v :: rest) := by simp
          rw [← hassoc]
          exact hrep₂
        · rw [← hos, hos₂, ho]
          have hlen2 : (recs ++ [v]).length = recs.length + 1 := by simp
          rw [hlen2]
          rfl

/-- The shape needed to reason about reads: one fully-represented
segment, possibly followed by one empty segment (the rollover segment,
or its recovered image after a reopen). -/
def LogReadRep (log : Log) (b : Nat) (recs : List (List Nat)) : Prop :=
  (∃ s, log.segments = [s] ∧ SegRep s b recs) ∨
  (∃ s t, log.segments = [s, t] ∧ SegRep s b recs ∧
    SegRep t (b + recs.length) [])

theorem logRep_readRep (log : Log) (cfg : LogConfig) (recs : List (List Nat))
    (h : LogRep log cfg recs) : LogReadRep log cfg.initial_offset recs := by
  rcases h with ⟨_, s, hsegs, hrep, _⟩ | ⟨_, s, t, hsegs, hrep, _, hrept, _⟩
  · exact Or.inl ⟨s, hsegs, hrep⟩
  · exact Or.inr ⟨s, t, hsegs, hrep, hrept⟩

theorem find?_cons_true {α : Type} (p : α → Bool) (a : α) (l : List α)
    (h : p a = true) : (a :: l).find? p = some a := by
  simp [List.find?, h]

theorem find?_cons_false {α : Type} (p : α → Bool) (a : α) (l : List α)
    (h : p a = false) : (a :: l).find? p = l.find? p := by
  simp [List.find?, h]

theorem logReadRep_read (log : Log) (b : Nat) (recs : List (List Nat))
    (i : Nat) (h : LogReadRep log b recs) (hi : i < recs.length)
    (hlen : storeLen recs < U64) (hoff : b + recs.length ≤ U64) :
    log.read (b + i) = .ok { offset := b + i, value := recs.getD i [] } := by
  rcases h with ⟨s, hsegs, hrep⟩ | ⟨s, t, hsegs, hrep, hrept⟩
  · have hp : ((fun sg : Segment =>
        sg.base_offset ≤ b + i && decide (b + i < sg.next_offset)) s) = true := by
      simp only [hrep.1, hrep.2.1]
      simp <;> omega
    rw [Log.read, hsegs, find?_cons_true
      (fun sg : Segment => sg.base_offset ≤ b + i && decide (b + i < sg.next_offset))
      s [] hp]
    exact segRep_read s b recs i hrep hi hlen hoff
  · have hp : ((fun sg : Segment =>
        sg.base_offset ≤ b + i && decide (b + i < sg.next_offset)) s) = true := by
      simp only [hrep.1, hrep.2.1]
      simp <;> omega
    rw [Log.read, hsegs, find?_cons_true
      (fun sg : Segment => sg.base_offset ≤ b + i && decide (b + i < sg.next_offset))
      s [t] hp]
    exact segRep_read s b recs i hrep hi hlen hoff

theorem logReadRep_read_oob (log : Log) (b : Nat) (recs : List (List Nat))
    (o : Nat) (h : LogReadRep log b recs)
    (ho : o < b ∨ b + recs.length ≤ o) :
    log.read o = .error (.logOffsetOutOfBounds o) := by
  rcases h with ⟨s, hsegs, hrep⟩ | ⟨s, t, hsegs, hrep, hrept⟩
  · have hp : ((fun sg : Segment =>
        sg.base_offset ≤ o && decide (o < sg.next_offset)) s) = false := by
      simp only [hrep.1, hrep.2.1]
      simp <;> omega
    rw [Log.read, hsegs, find?_cons_false
      (fun sg : Segment => sg.base_offset ≤ o && decide (o < sg.next_offset))
      s [] hp, List.find?_nil]
  · have hp : ((fun sg : Segment =>
        sg.base_offset ≤ o && decide (o < sg.next_offset)) s) = false := by
      simp only [hrep.1, hrep.2.1]
      simp <;> omega
    have hpt : ((fun sg : Segment =>
        sg.base_offset ≤ o && decide (o < sg.next_offset)) t) = false := by
      simp only [hrept.1, hrept.2.1]
      simp <;> omega
    rw [Log.read, hsegs, find?_cons_false
      (fun sg : Segment => sg.base_offset ≤ o && decide (o < sg.next_offset))
      s [t] hp, find?_cons_false
      (fun sg : Segment => sg.base_offset ≤ o && decide (o < sg.next_offset))
      t [] hpt, List.find?_nil]

theorem logReadRep_offsets (log : Log) (b : Nat) (recs : List (List Nat))
    (h : LogReadRep log b recs) :
    log.lowestOffset = b ∧ log.highestOffset = b + recs.length := by
  rcases h with ⟨s, hsegs, hrep⟩ | ⟨s, t, hsegs, hrep, hrept⟩
  · constructor
    · rw [Log.lowestOffset, hsegs]
      exact hrep.1
    · rw [Log.highestOffset, hsegs]
      exact hrep.2.1
  · constructor
    · rw [Log.lowestOffset, hsegs]
      exact hrep.1
    · rw [Log.highestOffset, hsegs]
      show t.next_offset = b + recs.length
      have := hrept.2.1
      simpa using this

theorem logRep_close_reopen (log : Log) (cfg : LogConfig)
    (recs : List (List Nat)) (h : LogRep log cfg recs)
    (hn : recs.length ≤ U32) :
    LogReadRep (Log.openDir (Log.close log) cfg) cfg.initial_offset recs ∧
    (Log.openDir (Log.close log) cfg).segments.map
        (fun s => (s.base_offset, s.next_offset)) =
      log.segments.map (fun s => (s.base_offset, s.next_offset)) := by
  rcases h with ⟨hact, s, hsegs, hrep, hcfg⟩ |
    ⟨hact, s, t, hsegs, hrep, hcfg, hrept, htcfg⟩
  · have hsmax : ENTRY_WIDTH * recs.length ≤
        (mainSegConfig cfg).max_index_bytes := by
      obtain ⟨hsize, hlenm, z, hmm⟩ := hrep.2.2.1
      have hE : (entriesBytes (indexPairs 0 0 recs)).length =
          ENTRY_WIDTH * recs.length := by
        rw [entriesBytes_length, indexPairs_length]
      have : s.index.mmap.length = ENTRY_WIDTH * recs.length + z := by
        rw [hmm, List.length_append, hE, List.length_replicate]
      rw [← hcfg]
      omega
    have hrep' := segRep_close_reopen s cfg.initial_offset recs hrep hn
      (mainSegConfig cfg) hsmax
    have hdir : Log.close log =
        [{ base := s.base_offset, storeFile := (s.close).1,
           indexFile := (s.close).2 }] := by
      rw [Log.close, hsegs]
      rfl
    have hopen : (Log.openDir (Log.close log) cfg).segments =
        [Segment.new s.base_offset (s.close).1 (s.close).2
          (mainSegConfig cfg)] := by
      rw [hdir, Log.openDir]
      rfl
    rw [hrep.1] at hopen
    constructor
    · exact Or.inl ⟨_, hopen, hrep'⟩
    · rw [hopen, hsegs]
      simp only [List.map_cons, List.map_nil]
      rw [hrep'.1, hrep'.2.1, hrep.1, hrep.2.1]
  · have hsmax : ENTRY_WIDTH * recs.length ≤
        (mainSegConfig cfg).max_index_bytes := by
      obtain ⟨hsize, hlenm, z, hmm⟩ := hrep.2.2.1
      have hE : (entriesBytes (indexPairs 0 0 recs)).length =
          ENTRY_WIDTH * recs.length := by
        rw [entriesBytes_length, indexPairs_length]
      have : s.index.mmap.length = ENTRY_WIDTH * recs.length + z := by
        rw [hmm, List.length_append, hE, List.length_replicate]
      rw [← hcfg]
      omega
    have hrep' := segRep_close_reopen s cfg.initial_offset recs hrep hn
      (mainSegConfig cfg) hsmax
    have hrept' := segRep_close_reopen t (cfg.initial_offset + recs.length) []
      hrept (by simp) (mainSegConfig cfg) (by simp)
    have hdir : Log.close log =
        [{ base := s.base_offset, storeFile := (s.close).1,
           indexFile := (s.close).2 },
         { base := t.base_offset, storeFile := (t.close).1,
           indexFile := (t.close).2 }] := by
      rw [Log.close, hsegs]
      rfl
    have hopen : (Log.openDir (Log.close log) cfg).segments =
        [Segment.new s.base_offset (s.close).1 (s.close).2 (mainSegConfig cfg),
         Segment.new t.base_offset (t.close).1 (t.close).2
           (mainSegConfig cfg)] := by
      rw [hdir, Log.openDir]
      rfl
    rw [hrep.1, hrept.1] at hopen
    constructor
    · exact Or.inr ⟨_, _, hopen, hrep', hrept'⟩
    · rw [hopen, hsegs]
      simp only [List.map_cons, List.map_nil]
      rw [hrep'.1, hrep'.2.1, hrep.1, hrep.2.1, hrept'.1, hrept'.2.1,
        hrept.1, hrept.2.1]

/-! ## Claim theorems -/

/-- C1: for every sequence of appends `v₀ … vₙ₋₁` to a fresh `Log` with
`initial_offset = b` that all succeed, the appends return the offsets
`b, b+1, …, b+n-1`, `Log.read (b+i)` returns `{offset: b+i, value: vᵢ}`
for every `0 ≤ i < n`, and reading any offset outside `[b, b+n)` fails
with `OffsetOutOfBounds`.  The side conditions keep the `Nat` model and
the wrapping `u64` arithmetic of the source in agreement. -/
theorem appendAll_reads_back (cfg : LogConfig) (vs : List (List Nat))
    (log' : Log) (os : List Nat)
    (hlen : storeLen vs < U64)
    (hoff : cfg.initial_offset + vs.length ≤ U64)
    (happ : appendAll (Log.newFresh cfg) vs = .ok (log', os)) :
    os = List.range' cfg.initial_offset vs.length ∧
    (∀ i, i < vs.length →
      log'.read (cfg.initial_offset + i) =
        .ok { offset := cfg.initial_offset + i, value := vs.getD i [] }) ∧
    (∀ o, o < cfg.initial_offset ∨ cfg.initial_offset + vs.length ≤ o →
      log'.read o = .error (.logOffsetOutOfBounds o)) := by
  obtain ⟨hrep, hos⟩ := appendAll_rep vs (Log.newFresh cfg) cfg [] log' os
    (logRep_fresh cfg) happ
  simp only [List.nil_append, List.length_nil, Nat.add_zero] at hrep hos
  have hread := logRep_readRep _ _ _ hrep
  exact ⟨hos, fun i hi => logReadRep_read _ _ _ i hread hi hlen hoff,
    fun o ho => logReadRep_read_oob _ _ _ o hread ho⟩

/-- The S1 scenario values `"a"`, `"b"`, `"c"` as byte lists. -/
def s1vals : List (List Nat) := [[97], [98], [99]]

/-- The log produced by the S1 scenario on a fresh default log. -/
def s1log : Log :=
  match appendAll (Log.newFresh LogConfig.default) s1vals with
  | .ok (l, _) => l
  | .error _ => Log.newFresh LogConfig.default

theorem appendAll_reads_back_witness :
    (storeLen s1vals < U64 ∧
      LogConfig.default.initial_offset + s1vals.length ≤ U64 ∧
      appendAll (Log.newFresh LogConfig.default) s1vals =
        .ok (s1log, [0, 1, 2])) ∧
    s1log.read 0 = .ok { offset := 0, value := [97] } ∧
    s1log.read 2 = .ok { offset := 2, value := [99] } ∧
    s1log.read 3 = .error (.logOffsetOutOfBounds 3) := by
  have happ : appendAll (Log.newFresh LogConfig.default) s1vals =
      .ok (s1log, [0, 1, 2]) := by decide
  have h := appendAll_reads_back LogConfig.default s1vals s1log [0, 1, 2]
    (by decide) (by decide) happ
  refine ⟨⟨by decide, by decide, happ⟩, ?_, ?_, ?_⟩
  · simpa [s1vals, LogConfig.default] using h.2.1 0 (by decide)
  · simpa [s1vals, LogConfig.default] using h.2.1 2 (by decide)
  · simpa [s1vals, LogConfig.default] using h.2.2 3 (by decide)

/-- C5: after any sequence of successful appends to a fresh log,
`lowest_offset` is the initial offset `b`, `highest_offset` is `b + n`,
and `highest_offset` is by definition the last segment's
`next_offset`. -/
theorem lowest_highest_offsets (cfg : LogConfig) (vs : List (List Nat))
    (log' : Log) (os : List Nat)
    (happ : appendAll (Log.newFresh cfg) vs = .ok (log', os)) :
    log'.lowestOffset = cfg.initial_offset ∧
    log'.highestOffset = cfg.initial_offset + vs.length ∧
    log'.highestOffset = (log'.segments.getLastD default).next_offset := by
  obtain ⟨hrep, _⟩ := appendAll_rep vs (Log.newFresh cfg) cfg [] log' os
    (logRep_fresh cfg) happ
  simp only [List.nil_append] at hrep
  have h := logReadRep_offsets _ _ _ (logRep_readRep _ _ _ hrep)
  exact ⟨h.1, h.2, rfl⟩

theorem lowest_highest_offsets_witness :
    appendAll (Log.newFresh LogConfig.default) s1vals = .ok (s1log, [0, 1, 2]) ∧
    s1log.lowestOffset = 0 ∧ s1log.highestOffset = 3 := by
  have happ : appendAll (Log.newFresh LogConfig.default) s1vals =
      .ok (s1log, [0, 1, 2]) := by decide
  have h := lowest_highest_offsets LogConfig.default s1vals s1log [0, 1, 2] happ
  exact ⟨happ, h.1, h.2.1⟩

/-- C3: closing a log obtained by successful appends and reopening the
resulting directory with the same config yields a log that returns the
same record for every previously valid offset and has the same
`highest_offset`; every segment's `(base_offset, next_offset)` pair is
reconstructed exactly, and `Segment::new` recovers `next_offset` from
the index file alone — the store file contents are irrelevant to it. -/
theorem close_reopen_roundtrip (cfg : LogConfig) (vs : List (List Nat))
    (log' : Log) (os : List Nat)
    (hlen : storeLen vs < U64)
    (hoff : cfg.initial_offset + vs.length ≤ U64)
    (hn : vs.length ≤ U32)
    (happ : appendAll (Log.newFresh cfg) vs = .ok (log', os)) :
    (∀ i, i < vs.length →
      (Log.openDir (Log.close log') cfg).read (cfg.initial_offset + i) =
        .ok { offset := cfg.initial_offset + i, value := vs.getD i [] }) ∧
    (Log.openDir (Log.close log') cfg).highestOffset = log'.highestOffset ∧
    (Log.openDir (Log.close log') cfg).segments.map
        (fun s => (s.base_offset, s.next_offset)) =
      log'.segments.map (fun s => (s.base_offset, s.next_offset)) ∧
    (∀ base sf sf' xf c, (Segment.new base sf xf c).next_offset =
      (Segment.new base sf' xf c).next_offset) := by
  obtain ⟨hrep, _⟩ := appendAll_rep vs (Log.newFresh cfg) cfg [] log' os
    (logRep_fresh cfg) happ
  simp only [List.nil_append] at hrep
  obtain ⟨hrr, hmap⟩ := logRep_close_reopen log' cfg vs hrep hn
  have hoffs := logReadRep_offsets _ _ _ hrr
  have hoffs' := logReadRep_offsets _ _ _ (logRep_readRep _ _ _ hrep)
  exact ⟨fun i hi => logReadRep_read _ _ _ i hrr hi hlen hoff,
    by rw [hoffs.2, hoffs'.2], hmap, fun base sf sf' xf c => rfl⟩

/-- The S2 scenario: the S1 log closed and reopened. -/
def s2log : Log := Log.openDir (Log.close s1log) LogConfig.default

theorem close_reopen_roundtrip_witness :
    (storeLen s1vals < U64 ∧
      LogConfig.default.initial_offset + s1vals.length ≤ U64 ∧
      s1vals.length ≤ U32 ∧
      appendAll (Log.newFresh LogConfig.default) s1vals =
        .ok (s1log, [0, 1, 2])) ∧
    s2log.read 0 = .ok { offset := 0, value := [97] } ∧
    s2log.read 1 = .ok { offset := 1, value := [98] } ∧
    s2log.read 2 = .ok { offset := 2, value := [99] } ∧
    s2log.highestOffset = s1log.highestOffset := by
  have happ : appendAll (Log.newFresh LogConfig.default) s1vals =
      .ok (s1log, [0, 1, 2]) := by decide
  have h := close_reopen_roundtrip LogConfig.default s1vals s1log [0, 1, 2]
    (by decide) (by decide) (by decide) happ
  refine ⟨⟨by decide, by decide, by decide, happ⟩, ?_, ?_, ?_, h.2.1⟩
  · simpa [s1vals, LogConfig.default, s2log] using h.1 0 (by decide)
  · simpa [s1vals, LogConfig.default, s2log] using h.1 1 (by decide)
  · simpa [s1vals, LogConfig.default, s2log] using h.1 2 (by decide)

/-- The S4 scenario configuration: index room for exactly two
entries. -/
def c2cfg : LogConfig :=
  { initial_offset := 0, max_store_bytes_per_segment := 4096,
    max_index_bytes_per_segment := 24 }

/-- The log after two 1-byte appends under `c2cfg` (the second append
maxes the index and triggers rollover). -/
def c2log : Log :=
  match appendAll (Log.newFresh c2cfg) [[97], [98]] with
  | .ok (l, _) => l
  | .error _ => Log.newFresh c2cfg

/-- C2: with `{max_store_bytes: 4096, max_index_bytes: 24}`, the second
1-byte append succeeds, creates exactly one new active segment with
`base_offset = 2` — but `Log::append` builds it with the hard-coded
configuration `{max_index_bytes: 0, max_store_bytes: 0}`, so the next
append fails with `IndexIsFull` instead of landing in the new
segment. -/
theorem rollover_zero_config_bug :
    appendAll (Log.newFresh c2cfg) [[97], [98]] = .ok (c2log, [0, 1]) ∧
    c2log.segments.length = 2 ∧
    c2log.active_segment = 1 ∧
    (c2log.segments.getD 1 default).base_offset = 2 ∧
    (c2log.segments.getD 1 default).config =
      { max_index_bytes := 0, max_store_bytes := 0, initial_offset := 0 } ∧
    (c2log.append [99]).1 = .error .indexIsFull := by
  decide

/-- A segment whose index has no room at all (capacity 0). -/
def c4seg : Segment :=
  Segment.new 0 [] []
    { max_index_bytes := 0, max_store_bytes := 0, initial_offset := 0 }

/-- C4 counterexample: an append that fails with `IndexIsFull` has
already appended the record bytes to the store — the store file is NOT
left unchanged (17 bytes of length tag plus encoded record are
written). -/
theorem indexFull_after_store_write_cex :
    (c4seg.append [97]).1 = .error .indexIsFull ∧
    (c4seg.append [97]).2.store.file ≠ c4seg.store.file ∧
    c4seg.store.size = 0 ∧
    (c4seg.append [97]).2.store.size = 17 := by
  decide

/-- C4 amended: `Segment::append` writes the store before the index, so
a failing append raises `IndexIsFull` only after the store bytes are
appended; the index and `next_offset` are unchanged (leaving the
orphaned store bytes invisible to reads), and the store file has grown
by exactly the encoded entry. -/
theorem append_indexFull_after_store_write (s : Segment) (v : List Nat)
    (e : Err) (h : (s.append v).1 = .error e) :
    e = .indexIsFull ∧
    (s.append v).2.index = s.index ∧
    (s.append v).2.next_offset = s.next_offset ∧
    (s.append v).2.store.file =
      s.store.file ++
        beBytes 8 (encodeRecord { offset := s.next_offset, value := v }).length ++
        encodeRecord { offset := s.next_offset, value := v } := by
  simp only [Segment.append, Store.append] at h ⊢
  by_cases hf : s.index.isFull
  · have hw : s.index.write ((s.next_offset - s.base_offset) % U32)
        s.store.file_size = .error .indexIsFull := by
      rw [Index.write, if_pos hf]
    rw [hw] at h ⊢
    have h2 : (Except.error Err.indexIsFull : Except Err Nat) = .error e := h
    have he : Err.indexIsFull = e := by injection h2
    exact ⟨he.symm, rfl, rfl, rfl⟩
  · have hw : s.index.write ((s.next_offset - s.base_offset) % U32)
        s.store.file_size = .ok
          { size := s.index.size + ENTRY_WIDTH,
            mmap := listWrite s.index.mmap s.index.size
              (beBytes 4 ((s.next_offset - s.base_offset) % U32) ++
                beBytes 8 s.store.file_size) } := by
      rw [Index.write, if_neg hf]
    rw [hw] at h
    have h2 : (Except.ok s.next_offset : Except Err Nat) = .error e := h
    exact absurd h2 (by simp)

theorem append_indexFull_after_store_write_witness :
    (c4seg.append [97]).1 = .error .indexIsFull ∧
    (c4seg.append [97]).2.next_offset = c4seg.next_offset ∧
    (c4seg.append [97]).2.index = c4seg.index := by
  have h := append_indexFull_after_store_write c4seg [97] .indexIsFull
    (by decide)
  exact ⟨by decide, h.2.2.1, h.2.1⟩

/-! ## Truncation -/

theorem endIndexAux_no_match (segs : List Segment) (lowest : Nat)
    (h : ∀ j, j < segs.length →
      ¬ (segs.getD j default).next_offset ≤ lowest + 1) :
    ∀ i acc, endIndexAux segs lowest i acc = acc := by
  induction segs with
  | nil => intro i acc; rfl
  | cons s rest ih =>
    intro i acc
    rw [endIndexAux]
    have h0 := h 0 (by simp)
    simp only [List.getD_cons_zero] at h0
    rw [if_neg h0]
    refine ih ?_ _ _
    intro j hj
    have := h (j + 1) (by simpa using Nat.succ_lt_succ hj)
    simpa using this

theorem endIndexAux_greatest (segs : List Segment) (lowest : Nat) (k : Nat)
    (hk : k < segs.length)
    (hP : (segs.getD k default).next_offset ≤ lowest + 1)
    (hmax : ∀ j, k < j → j < segs.length →
      ¬ (segs.getD j default).next_offset ≤ lowest + 1) :
    ∀ i acc, endIndexAux segs lowest i acc = i + k := by
  induction segs generalizing k with
  | nil => simp at hk
  | cons s rest ih =>
    intro i acc
    cases k with
    | zero =>
      simp only [List.getD_cons_zero] at hP
      rw [endIndexAux, if_pos hP]
      have hnone : ∀ j, j < rest.length →
          ¬ (rest.getD j default).next_offset ≤ lowest + 1 := by
        intro j hj
        have := hmax (j + 1) (by omega) (by simpa using Nat.succ_lt_succ hj)
        simpa using this
      rw [endIndexAux_no_match rest lowest hnone (i + 1) i]
      omega
    | succ k' =>
      have hk' : k' < rest.length := by simpa using hk
      have hP' : (rest.getD k' default).next_offset ≤ lowest + 1 := by
        simpa using hP
      have hmax' : ∀ j, k' < j → j < rest.length →
          ¬ (rest.getD j default).next_offset ≤ lowest + 1 := by
        intro j hj hjl
        have := hmax (j + 1) (by omega) (by simpa using Nat.succ_lt_succ hjl)
        simpa using this
      rw [endIndexAux, ih k' hk' hP' hmax' (i + 1) _]
      omega

theorem endIndexAux_cases (segs : List Segment) (lowest : Nat) :
    ∀ i acc, endIndexAux segs lowest i acc = acc ∨
      endIndexAux segs lowest i acc < i + segs.length := by
  induction segs with
  | nil => intro i acc; left; rfl
  | cons s rest ih =>
    intro i acc
    rw [endIndexAux]
    rcases ih (i + 1) (if s.next_offset ≤ lowest + 1 then i else acc) with h | h
    · rw [h]
      split
      · right
        simp only [List.length_cons]
        omega
      · left
        rfl
    · right
      simp only [List.length_cons]
      omega

/-- C6: `Log::truncate(lowest)` removes exactly the segments at indices
`[0, k)` where `k` is the greatest index whose segment satisfies
`next_offset ≤ lowest + 1` (the remaining segments, starting with
segment `k` itself, keep their order), and is a no-op when no segment
satisfies the condition. -/
theorem truncate_removes_head_segments (log : Log) (lowest : Nat) :
    (∀ k, k < log.segments.length →
      (log.segments.getD k default).next_offset ≤ lowest + 1 →
      (∀ j, k < j → j < log.segments.length →
        ¬ (log.segments.getD j default).next_offset ≤ lowest + 1) →
      (log.truncate lowest).segments = log.segments.drop k) ∧
    ((∀ j, j < log.segments.length →
        ¬ (log.segments.getD j default).next_offset ≤ lowest + 1) →
      (log.truncate lowest).segments = log.segments) := by
  constructor
  · intro k hk hP hmax
    rw [Log.truncate]
    rw [endIndexAux_greatest log.segments lowest k hk hP hmax 0 0]
    simp
  · intro h
    rw [Log.truncate]
    rw [endIndexAux_no_match log.segments lowest h 0 0]
    exact List.drop_zero _

/-- The S5 scenario: a fresh default log with two extra segments created
via `new_segment(1)` and `new_segment(2)` (bases 0, 1, 2). -/
def log3 : Log := ((Log.newFresh LogConfig.default).newSegment 1).newSegment 2

theorem truncate_removes_head_segments_witness :
    (log3.truncate 1).segments = log3.segments.drop 2 ∧
    (log3.truncate 1).segments.length = 1 ∧
    ((log3.truncate 1).segments.getD 0 default).base_offset = 2 := by
  have hmax : ∀ j, 2 < j → j < log3.segments.length →
      ¬ (log3.segments.getD j default).next_offset ≤ 1 + 1 := by
    intro j h1 h2
    exfalso
    have hlen : log3.segments.length = 3 := by decide
    omega
  have h := (truncate_removes_head_segments log3 1).1 2 (by decide) (by decide) hmax
  exact ⟨h, by decide, by decide⟩

theorem getD_drop {α : Type} (l : List α) (d : α) (k m : Nat) :
    (l.drop k).getD m d = l.getD (k + m) d := by
  induction l generalizing k with
  | nil => simp
  | cons a t ih =>
    cases k with
    | zero => simp
    | succ k' =>
      simp only [List.drop_succ_cons]
      rw [ih k']
      have harith : k' + 1 + m = (k' + m) + 1 := by omega
      rw [harith, List.getD_cons_succ]

/-- C7 counterexample: after `truncate(1)` on segments with next
offsets `0, 1, 2`, the single surviving segment has
`next_offset = 2 ≤ 1 + 1` — the survivors are NOT precisely the
segments with `next_offset > lowest + 1`. -/
theorem truncate_survivor_within_threshold_cex :
    (log3.truncate 1).segments.length = 1 ∧
    ((log3.truncate 1).segments.getD 0 default).next_offset ≤ 1 + 1 := by
  decide

/-- C7 amended: after `truncate(t)` the removed segments are those
strictly before the greatest index `k` with `next_offset ≤ t + 1`;
the first survivor is segment `k` itself — which still has
`next_offset ≤ t + 1` — and every later survivor has
`next_offset > t + 1`. -/
theorem truncate_first_survivor_only (log : Log) (lowest k : Nat)
    (hk : k < log.segments.length)
    (hP : (log.segments.getD k default).next_offset ≤ lowest + 1)
    (hmax : ∀ j, k < j → j < log.segments.length →
      ¬ (log.segments.getD j default).next_offset ≤ lowest + 1) :
    (log.truncate lowest).segments = log.segments.drop k ∧
    ((log.truncate lowest).segments.getD 0 default).next_offset ≤ lowest + 1 ∧
    ∀ m, 1 ≤ m → m < (log.truncate lowest).segments.length →
      lowest + 1 <
        ((log.truncate lowest).segments.getD m default).next_offset := by
  have hdrop : (log.truncate lowest).segments = log.segments.drop k := by
    rw [Log.truncate]
    rw [endIndexAux_greatest log.segments lowest k hk hP hmax 0 0]
    simp
  refine ⟨hdrop, ?_, ?_⟩
  · rw [hdrop, getD_drop]
    simpa using hP
  · intro m hm hmlen
    rw [hdrop, getD_drop]
    rw [hdrop, List.length_drop] at hmlen
    have := hmax (k + m) (by omega) (by omega)
    omega

theorem truncate_first_survivor_only_witness :
    ((log3.truncate 1).segments.getD 0 default).next_offset ≤ 1 + 1 := by
  have hmax : ∀ j, 2 < j → j < log3.segments.length →
      ¬ (log3.segments.getD j default).next_offset ≤ 1 + 1 := by
    intro j h1 h2
    exfalso
    have hlen : log3.segments.length = 3 := by decide
    omega
  exact (truncate_first_survivor_only log3 1 2 (by decide) (by decide) hmax).2.1

/-! ## Log structural invariants (claim C9) -/

/-- The invariant the claim asserts: non-empty segments with the active
segment being the last one. -/
def GoodLog (log : Log) : Prop :=
  log.segments ≠ [] ∧ log.active_segment = log.segments.length - 1

/-- C9: evaluation at the failing input — `Log::truncate` does not
update `active_segment`: starting from three segments with
`active_segment = 2`, `truncate(1)` leaves one segment but
`active_segment` is still 2, not the index of the last element (0),
contradicting the field's own documentation in `commit_log.rs`. -/
theorem truncate_stale_active_segment_cex :
    log3.active_segment = 2 ∧
    (log3.truncate 1).segments.length = 1 ∧
    (log3.truncate 1).active_segment = 2 := by
  decide

/-- The part of the structural invariant the code does maintain:
`Log::new` establishes it (segments non-empty, `active_segment` = last
index) and `append` and `new_segment` preserve it; `truncate` preserves
non-emptiness (it always keeps at least the last matching segment, so
`lowest_offset` and `highest_offset` stay well defined) although, as
shown above, it leaves `active_segment` stale. -/
theorem log_invariant_preservation (cfg : LogConfig) (log : Log)
    (v : List Nat) (o t : Nat) :
    GoodLog (Log.newFresh cfg) ∧
    (GoodLog log → GoodLog (log.append v).2) ∧
    (GoodLog log → GoodLog (log.newSegment o)) ∧
    (GoodLog log → (log.truncate t).segments ≠ []) := by
  refine ⟨⟨by simp [Log.newFresh, Log.openDir], by simp [Log.newFresh, Log.openDir]⟩,
    ?_, ?_, ?_⟩
  · intro hg
    obtain ⟨hne, hact⟩ := hg
    have hlen : 0 < log.segments.length := List.length_pos.mpr hne
    rcases hres : (log.segments.getD log.active_segment default).append v with
      ⟨res, seg'⟩
    have hsetne : log.segments.set log.active_segment seg' ≠ [] := by
      intro hc
      have hls : (log.segments.set log.active_segment seg').length =
          log.segments.length := List.length_set ..
      rw [hc] at hls
      simp at hls
      omega
    cases res with
    | error e =>
      have h2 : (log.append v).2 =
          { log with segments := log.segments.set log.active_segment seg' } := by
        rw [Log.append, hres]
      rw [h2]
      exact ⟨hsetne, by simp only [List.length_set]; exact hact⟩
    | ok off =>
      by_cases hm : seg'.isMaxed
      · have h2 : (log.append v).2 =
            { log with
              segments := log.segments.set log.active_segment seg' ++
                [Segment.new (off + 1) [] [] ⟨0, 0, 0⟩],
              active_segment := log.active_segment + 1 } := by
          rw [Log.append, hres]
          simp only [hm]
          rfl
        rw [h2]
        refine ⟨by simp, ?_⟩
        simp only [List.length_append, List.length_set, List.length_cons,
          List.length_nil]
        omega
      · have h2 : (log.append v).2 =
            { log with
              segments := log.segments.set log.active_segment seg' } := by
          rw [Log.append, hres]
          simp only [Bool.not_eq_true] at hm
          simp only [hm]
          rfl
        rw [h2]
        exact ⟨hsetne, by simp only [List.length_set]; exact hact⟩
  · intro hg
    constructor
    · simp [Log.newSegment]
    · simp [Log.newSegment]
  · intro hg
    obtain ⟨hne, _⟩ := hg
    have hlen : 0 < log.segments.length := List.length_pos.mpr hne
    rw [Log.truncate]
    rcases endIndexAux_cases log.segments t 0 0 with h | h
    · rw [h]
      simpa using hne
    · simp only [Nat.zero_add] at h
      have : (log.segments.drop (endIndexAux log.segments t 0 0)).length =
          log.segments.length - endIndexAux log.segments t 0 0 :=
        List.length_drop ..
      intro hc
      have hc' : List.drop (endIndexAux log.segments t 0 0) log.segments = [] :=
        hc
      rw [hc'] at this
      simp at this
      omega

theorem log_invariant_preservation_witness :
    GoodLog (Log.newFresh LogConfig.default) ∧
    GoodLog (log3.append [97]).2 ∧
    GoodLog (log3.newSegment 3) ∧
    (log3.truncate 1).segments ≠ [] := by
  have hg : GoodLog log3 := ⟨by decide, by decide⟩
  have h := log_invariant_preservation LogConfig.default log3 [97] 3 1
  exact ⟨h.1, h.2.1 hg, h.2.2.1 hg, h.2.2.2 hg⟩

/-! ## Directory recovery (claim C8) -/

/-- A directory whose recovered segments violate the chain invariant:
both segments' indexes are empty, so segment 0 recovers
`next_offset = 0`, which does not chain into the next stem 5. -/
def c8entries : List DirEntry :=
  [{ base := 0, storeFile := [], indexFile := [] },
   { base := 5, storeFile := [], indexFile := [] }]

/-- C8 counterexample: `Log::new` succeeds on the non-chaining
directory `c8entries` (first segment recovers `next_offset = 0`, second
has `base_offset = 5`), instead of failing with a `CorruptDirectory`
error — no such validation or error exists in the code. -/
theorem log_new_accepts_unchained_cex :
    (Log.new c8entries LogConfig.default).isOk = true ∧
    ((Log.openDir c8entries LogConfig.default).segments.getD 0
      default).next_offset = 0 ∧
    ((Log.openDir c8entries LogConfig.default).segments.getD 1
      default).base_offset = 5 := by
  decide

/-- C8 amended: `Log::new` performs no validation of the recovered
segments whatsoever — it succeeds on every directory (I/O aside),
builds exactly one segment per recovered `.store` stem (or a single
fresh segment when there is none), and keeps every stem as a
`base_offset` unconditionally. -/
theorem log_new_no_validation (entries : List DirEntry) (cfg : LogConfig) :
    (Log.new entries cfg).isOk = true ∧
    (Log.openDir entries cfg).segments.length = Nat.max entries.length 1 ∧
    (Log.openDir entries cfg).segments.map (fun s => s.base_offset) =
      (if entries.isEmpty then [cfg.initial_offset]
       else entries.map (fun e => e.base)) := by
  refine ⟨rfl, ?_, ?_⟩
  · cases entries with
    | nil => simp [Log.openDir]
    | cons e rest =>
      simp only [Log.openDir, List.map_cons, List.isEmpty_cons,
        Bool.false_eq_true, if_false, List.length_cons, List.length_map]
      simp [Nat.max_def]
  · cases entries with
    | nil => simp [Log.openDir, Segment.new]
    | cons e rest =>
      simp only [Log.openDir, List.map_cons, List.isEmpty_cons,
        Bool.false_eq_true, if_false, List.map_map]
      rfl

/-! ## Ordinal index lookup (claim C10) -/

/-- C10: `Index::write` never validates its offset argument — a write
sequence succeeds exactly when the entry count fits the mapped size,
regardless of the offsets passed — and `Index::read i` returns the
position field of the `i`-th entry in write order, never inspecting the
stored relative offsets. -/
theorem index_ordinal_lookup (max : Nat) (ps : List (Nat × Nat)) :
    ((Index.new [] max).writeAll ps).isOk =
      decide (ENTRY_WIDTH * ps.length ≤ max) ∧
    (∀ idx', (Index.new [] max).writeAll ps = .ok idx' →
      ∀ i, i < ps.length → idx'.read i = .ok ((ps.getD i (0, 0)).2 % U64)) := by
  have h := writeAll_rep ps (Index.new [] max) [] max (idxRep_new max)
  simp only [List.length_nil, Nat.zero_add, List.nil_append] at h
  constructor
  · by_cases hle : ENTRY_WIDTH * ps.length ≤ max
    · obtain ⟨idx', hw, _⟩ := h.1 hle
      rw [hw, decide_eq_true hle]
      rfl
    · rw [h.2 (by omega), decide_eq_false hle]
  · intro idx' hw i hi
    have hle : ENTRY_WIDTH * ps.length ≤ max := by
      by_contra hlt
      have hfail := h.2 (by omega)
      rw [hw] at hfail
      have hfail' : (true : Bool) = false := hfail
      exact Bool.noConfusion hfail'
    obtain ⟨idx'', hw', hrep'⟩ := h.1 hle
    rw [hw] at hw'
    have heq : idx' = idx'' := by injection hw'
    rw [heq]
    exact idxRep_read idx'' ps max i hrep' hi

/-- The ordinal-lookup scenario of the source's test
`read_returns_position_thats_mapped_to_the_offset`: offsets 0,1,2,3,999
with positions 10,0,1,333,42. -/
def c10pairs : List (Nat × Nat) := [(0, 10), (1, 0), (2, 1), (3, 333), (999, 42)]

/-- The index after those writes. -/
def c10idx : Index :=
  match (Index.new [] 1024).writeAll c10pairs with
  | .ok i => i
  | .error _ => Index.new [] 1024

theorem index_ordinal_lookup_witness :
    (Index.new [] 1024).writeAll c10pairs = .ok c10idx ∧
    c10idx.read 4 = .ok 42 ∧
    c10idx.read 0 = .ok 10 ∧
    ((Index.new [] 1024).writeAll c10pairs).isOk =
      decide (ENTRY_WIDTH * c10pairs.length ≤ 1024) := by
  have hw : (Index.new [] 1024).writeAll c10pairs = .ok c10idx := by decide
  have h := (index_ordinal_lookup 1024 c10pairs).2 c10idx hw
  refine ⟨hw, ?_, ?_, (index_ordinal_lookup 1024 c10pairs).1⟩
  · have h4 := h 4 (by decide)
    rw [show (c10pairs.getD 4 (0, 0)).2 % U64 = 42 from by decide] at h4
    exact h4
  · have h0 := h 0 (by decide)
    rw [show (c10pairs.getD 0 (0, 0)).2 % U64 = 10 from by decide] at h0
    exact h0

end CommitLog
